import Mathlib

/-!
Verification of the acronym consistency analysis engine of
`analyze_acronyms.py` (LaTeX acronym inspector).

The program is shallowly embedded: Python strings become `List Char`,
Python dictionaries become insertion-ordered association lists, the
recursive document loader becomes a fuel-based worklist interpreter
(with a proven-sufficient fuel bound), and each of the five fixed
regular expressions used by the source is modelled by a hand-written
matcher for exactly that pattern shape.  All definitions are executable
so that concrete runs can be settled by `decide` / `rfl`.
-/

set_option maxRecDepth 20000

/-- Python strings are modelled as lists of characters. -/
abbrev Str := List Char

/-! ## Character classes (ASCII fragment of the Python predicates used) -/

/-- Whitespace characters removed by Python `str.strip()` / split on by
`str.split()` and matched by the regex class `\s` (ASCII fragment). -/
def isPySpace (c : Char) : Bool :=
  c = ' ' || c = '\t' || c = '\n' || c = '\x0d' || c = '\x0b' || c = '\x0c'

/-- ASCII fragment of Python `str.isupper` applied to a single character. -/
def isUpperAscii (c : Char) : Bool := 'A' ≤ c && c ≤ 'Z'

/-- ASCII fragment of Python `str.islower` applied to a single character. -/
def isLowerAscii (c : Char) : Bool := 'a' ≤ c && c ≤ 'z'

/-- ASCII fragment of Python `str.isdigit` applied to a single character. -/
def isDigitAscii (c : Char) : Bool := '0' ≤ c && c ≤ '9'

/-- Word character for the regex `\b` boundary: `[A-Za-z0-9_]`. -/
def isWordChar (c : Char) : Bool :=
  isUpperAscii c || isLowerAscii c || isDigitAscii c || c = '_'

/-- ASCII lower-casing of one character (Python `str.lower`, ASCII part). -/
def lowerChar (c : Char) : Char :=
  if isUpperAscii c then Char.ofNat (c.toNat + 32) else c

/-- ASCII lower-casing of a string. -/
def pyLower (s : Str) : Str := s.map lowerChar

/-! ## Python string operations -/

/-- Python `str.strip()`: remove leading and trailing whitespace. -/
def pyStrip (s : Str) : Str :=
  ((s.dropWhile isPySpace).reverse.dropWhile isPySpace).reverse

/-- Python slicing `s[a:b]` for non-negative clamped indices. -/
def pySlice (s : Str) (a b : Nat) : Str := (s.take b).drop a

/-- Helper for `pyFind`: first index `≥ i` at which `needle` occurs. -/
def pyFindAux (needle : Str) : Str → Nat → Option Nat
  | l, i =>
    if needle.isPrefixOf l then some i
    else
      match l with
      | [] => none
      | _ :: t => pyFindAux needle t (i + 1)

/-- Python `hay.find(needle)` (as an `Option` instead of `-1`). -/
def pyFind (hay needle : Str) : Option Nat := pyFindAux needle hay 0

/-- Python `needle in hay` (substring containment). -/
def pyContains (hay needle : Str) : Bool := (pyFind hay needle).isSome

/-- Helper for Python `str.split()`: accumulate the current word. -/
def pySplitAux : Str → Str → List Str
  | [], acc => if acc = [] then [] else [acc.reverse]
  | c :: rest, acc =>
    if isPySpace c then
      if acc = [] then pySplitAux rest [] else acc.reverse :: pySplitAux rest []
    else pySplitAux rest (c :: acc)

/-- Python `str.split()` with no argument: split on whitespace runs,
discarding empty fields. -/
def pySplit (s : Str) : List Str := pySplitAux s []

/-- Python `' '.join(ws)`. -/
def joinSpace : List Str → Str
  | [] => []
  | [w] => w
  | w :: ws => w ++ ' ' :: joinSpace ws

/-- Python `s.endswith(t)`. -/
def pyEndsWith (s t : Str) : Bool := t.isSuffixOf s

/-- Python `s.startswith(t)`. -/
def pyStartsWith (s t : Str) : Bool := t.isPrefixOf s

/-! ## Association lists (insertion-ordered Python dictionaries) -/

/-- Lookup in an insertion-ordered association list (Python `d[k]` / `k in d`). -/
def lookupAssoc {α : Type} : List (Str × α) → Str → Option α
  | [], _ => none
  | (k, v) :: rest, key => if k = key then some v else lookupAssoc rest key

/-- Lookup in a dictionary of lists, defaulting to `[]` (Python
`defaultdict(list)` read access). -/
def lookupListAssoc {α : Type} (m : List (Str × List α)) (k : Str) : List α :=
  (lookupAssoc m k).getD []

/-- Python `defaultdict(list)`: `d[k].append(v)` — append to the entry for
`k`, creating it at the end on first use. -/
def appendAssoc {α : Type} : List (Str × List α) → Str → α → List (Str × List α)
  | [], k, v => [(k, [v])]
  | (k', vs) :: rest, k, v =>
    if k' = k then (k', vs ++ [v]) :: rest else (k', vs) :: appendAssoc rest k v

/-- Python dict-of-sets: `d.setdefault(k, set()).add(v)` — add `v` to the
set for `k` (sets are modelled as insertion-ordered duplicate-free lists). -/
def addToSetAssoc : List (Str × List Str) → Str → Str → List (Str × List Str)
  | [], k, v => [(k, [v])]
  | (k', vs) :: rest, k, v =>
    if k' = k then (k', if v ∈ vs then vs else vs ++ [v]) :: rest
    else (k', vs) :: addToSetAssoc rest k v

/-- Python dict assignment `d[k] = v`: replace in place or append. -/
def upsertAssoc {α : Type} : List (Str × α) → Str → α → List (Str × α)
  | [], k, v => [(k, v)]
  | (k', v') :: rest, k, v =>
    if k' = k then (k', v) :: rest else (k', v') :: upsertAssoc rest k v

/-- Keys of an association list. -/
def assocKeys {α : Type} (m : List (Str × α)) : List Str := m.map Prod.fst

/-! ## Models of the five fixed regular expressions of the source -/

/-- Word boundary `\b` of the regex engine at position `i` of `hay`:
the word-character status changes between `i - 1` and `i` (positions
outside the string count as non-word). -/
def boundaryAt (hay : Str) (i : Nat) : Bool :=
  let before := if i = 0 then false else
    match hay.drop (i - 1) with
    | c :: _ => isWordChar c
    | [] => false
  let here := match hay.drop i with
    | c :: _ => isWordChar c
    | [] => false
  before != here

/-- Case-insensitive literal match of `needle` at position `i` of `hay`
(the effect of `re.IGNORECASE` on an `re.escape`d literal, ASCII). -/
def matchCIAt (needle hay : Str) (i : Nat) : Bool :=
  (pyLower needle).isPrefixOf (pyLower (hay.drop i))

/-- Match of the pattern `\b{re.escape(form)}s?\b` (case-insensitive) at
position `i` of `hay`: used by `scan_acronyms` for long- and short-form
usage detection (source lines 82-88). -/
def wordPluralAt (form hay : Str) (i : Nat) : Bool :=
  boundaryAt hay i && matchCIAt form hay i &&
    (let j := i + form.length
     (matchCIAt ['s'] hay j && boundaryAt hay (j + 1)) || boundaryAt hay j)

/-- `re.search` of `\b{re.escape(form)}s?\b` (case-insensitive) in `hay`. -/
def wordPluralSearch (form hay : Str) : Bool :=
  (List.range (hay.length + 1)).any (wordPluralAt form hay)

/-- Match of `\b{re.escape(form)}\b(?!\s*\({re.escape(acr)}\))`
(case-insensitive) at position `i`: a standalone occurrence of the long
form `form` not immediately followed (after optional whitespace) by the
parenthesized token `acr` (source line 170).  The lookahead succeeds
exactly when the literal `(acr)` follows the maximal whitespace run,
since `(` is not a whitespace character. -/
def standaloneAt (form acr hay : Str) (i : Nat) : Bool :=
  boundaryAt hay i && matchCIAt form hay i &&
    (let j := i + form.length
     boundaryAt hay j &&
       !(matchCIAt ('(' :: acr ++ [')']) hay
           (j + ((hay.drop j).takeWhile isPySpace).length)))

/-- `re.search` of the standalone-usage pattern in `hay` (source line 174). -/
def standaloneSearch (form acr hay : Str) : Bool :=
  (List.range (hay.length + 1)).any (standaloneAt form acr hay)

/-- `re.findall(r"\(([A-Z]{2,10})\)", line)` (source line 101): every
parenthesized run of 2 to 10 uppercase letters.  A maximal uppercase run
after `(` matches exactly when its length is between 2 and 10 and the next
character is `)`; matches cannot overlap a later `(`, so scanning resumes
at the next character. -/
def findParenTokens : Str → List Str
  | [] => []
  | c :: rest =>
    if c = '(' then
      let run := rest.takeWhile isUpperAscii
      if 2 ≤ run.length && run.length ≤ 10 &&
          (match rest.drop run.length with
           | ')' :: _ => true
           | _ => false) then
        run :: findParenTokens rest
      else findParenTokens rest
    else findParenTokens rest

/-- One bounded parse step for `[^}]+\}` : the maximal run of non-`}`
characters (required non-empty) followed by `}`; returns the run and the
remainder after the `}`. -/
def parseBraceGroup (l : Str) : Option (Str × Str) :=
  let c := l.takeWhile (fun x => x ≠ '}')
  if c = [] then none
  else
    match l.drop c.length with
    | '}' :: rest => some (c, rest)
    | _ => none

/-- Attempt to parse `newacronym\{([^\}]+)\}\{([^\}]+)\}\{([^\}]+)\}` right
after a backslash. -/
def tryNewacronym (l : Str) : Option (Str × Str × Str) :=
  match "newacronym\x7b".data.isPrefixOf l, parseBraceGroup (l.drop 11) with
  | true, some (g1, r1) =>
    (match r1 with
     | '{' :: r1' =>
       (match parseBraceGroup r1' with
        | some (g2, r2) =>
          (match r2 with
           | '{' :: r2' =>
             (match parseBraceGroup r2' with
              | some (g3, _) => some (g1, g2, g3)
              | none => none)
           | _ => none)
        | none => none)
     | _ => none)
  | _, _ => none

/-- `re.search` of the three-argument definition command
`\\newacronym\{([^\}]+)\}\{([^\}]+)\}\{([^\}]+)\}` (source lines 45-47):
first match in the line, returning the three captured groups. -/
def findNewacronym : Str → Option (Str × Str × Str)
  | [] => none
  | c :: rest =>
    if c = '\\' then
      match tryNewacronym rest with
      | some g => some g
      | none => findNewacronym rest
    else findNewacronym rest

/-- Keyword step of the inclusion-directive pattern
`\\(?:input|include)\{`: after a backslash, try `input{` then `include{`,
returning the remainder after the opening brace. -/
def tryIncludeKeyword (l : Str) : Option Str :=
  if "input\x7b".data.isPrefixOf l then some (l.drop 6)
  else if "include\x7b".data.isPrefixOf l then some (l.drop 8)
  else none

/-- Fuel-bounded scan for `re.findall(r"\\(?:input|include)\{([^}]+)\}", line)`
(source line 31).  Scanning resumes after the closing brace of a match
(`findall` is non-overlapping); the fuel only bounds the number of scan
steps and `scanIncludesAux (l.length) l` never exhausts it, because every
step consumes at least one character. -/
def scanIncludesAux : Nat → Str → List Str
  | 0, _ => []
  | _ + 1, [] => []
  | fuel + 1, c :: rest =>
    if c = '\\' then
      match tryIncludeKeyword rest with
      | some afterBrace =>
        (match parseBraceGroup afterBrace with
         | some (content, rest') => content :: scanIncludesAux fuel rest'
         | none => scanIncludesAux fuel rest)
      | none => scanIncludesAux fuel rest
    else scanIncludesAux fuel rest

/-- All inclusion-directive targets of a line, in textual order. -/
def scanIncludes (l : Str) : List Str := scanIncludesAux l.length l

/-! ## Data model -/

/-- One `(path, line_number, stripped_line)` record produced by the loader
(source line 33). -/
structure SrcRec where
  path : Str
  lineNo : Nat
  text : Str
deriving DecidableEq, Repr

/-- One `\newacronym` definition (source lines 52-57). -/
structure AcronymDef where
  short : Str
  full : Str
  file : Str
  line : Nat
deriving DecidableEq, Repr

/-- The dictionary returned by `scan_acronyms` (source lines 177-183).
Python dictionaries and sets are insertion-ordered association lists /
duplicate-free lists here. -/
structure ScanReport where
  used_full : List (Str × List SrcRec)
  used_short : List (Str × List SrcRec)
  undefined : List (Str × SrcRec)
  undefined_full_forms : List (Str × List Str)
  inconsistent_usage : List (Str × List (SrcRec × Str))
deriving DecidableEq, Repr

/-! ## Document Loader (`read_latex_recursive`, source lines 18-39)

The filesystem under `ROOT_DIR` is a finite association list from file
name to `none` (the file exists but `open` raises) or `some lines` (its
`readlines`, without trailing newlines).  A name absent from the list is
a missing file (`path.exists()` is false).  All paths share the fixed
`ROOT_DIR` prefix, so path equality is file-name equality.

Python's recursion — emit a line's record, then immediately splice in the
full record sequence of each file it includes, threading one shared
visited set — is an in-order traversal of a worklist of pending items.
The interpreter below processes that worklist one item per step; the fuel
only bounds the number of steps and is proven sufficient below
(`loaderStep_no_fuelOut`). -/

/-- A filesystem: file name to `none` (unreadable) or `some lines`. -/
abbrev FileSys := List (Str × Option (List Str))

/-- Pending loader work: an already-built record to emit, or an inclusion
directive to resolve. -/
inductive Item where
  | record : SrcRec → Item
  | inc : Str → Item
deriving DecidableEq, Repr

/-- Target-name normalization for an inclusion directive (source lines
35-37): strip, then append `.tex` unless already present. -/
def normalizeInc (s : Str) : Str :=
  let t := pyStrip s
  if pyEndsWith t ".tex".data then t else t ++ ".tex".data

/-- Worklist block for one file: per line (numbered from 1), its stripped
record followed by one inclusion item per directive on the line, in
textual order (source lines 32-38). -/
def mkItemsAux (path : Str) : Nat → List Str → List Item
  | _, [] => []
  | i, l :: rest =>
    Item.record ⟨path, i, pyStrip l⟩ ::
      ((scanIncludes l).map (fun s => Item.inc (normalizeInc s)) ++
        mkItemsAux path (i + 1) rest)

/-- Worklist block for a whole file. -/
def mkItems (path : Str) (lines : List Str) : List Item :=
  mkItemsAux path 1 lines

/-- Outcome of a loader run: the record sequence and final visited set, a
propagated `open` exception, or fuel exhaustion (a model artifact that
never occurs with the standard fuel, see `loaderStep_no_fuelOut`). -/
inductive LoadOut where
  | ok : List SrcRec → List Str → LoadOut
  | err : LoadOut
  | fuelOut : LoadOut
deriving DecidableEq, Repr

/-- One-item-per-step worklist interpreter for `read_latex_recursive`.
An inclusion item for a visited or missing path is skipped (source
lines 23-24); an unreadable path raises (source line 27); otherwise the
path is added to the shared visited set and its block is spliced in front
of the remaining work (source lines 25-38). -/
def loaderStep (fs : FileSys) : Nat → List Item → List Str → LoadOut
  | _, [], seen => .ok [] seen
  | 0, _ :: _, _ => .fuelOut
  | fuel + 1, item :: rest, seen =>
    match item with
    | .record r =>
      (match loaderStep fs fuel rest seen with
       | .ok out seen' => .ok (r :: out) seen'
       | e => e)
    | .inc f =>
      if f ∈ seen || (lookupAssoc fs f).isNone then loaderStep fs fuel rest seen
      else
        match lookupAssoc fs f with
        | some none => .err
        | some (some lines) =>
          loaderStep fs fuel (mkItems f lines ++ rest) (f :: seen)
        | none => .err

/-- Total number of worklist items a run can ever create: one initial
inclusion item plus the block of every readable file (each spliced at
most once, thanks to the visited set). -/
def fsItemBound (fs : FileSys) : Nat :=
  fs.foldl
    (fun n e =>
      n + (match e.2 with
           | some lines => (mkItems e.1 lines).length
           | none => 0))
    1

/-- `read_latex_recursive(filename)` with `seen = None` (source lines
18-21): a fresh empty visited set and the standard fuel. -/
def read_latex_recursive (fs : FileSys) (entry : Str) : LoadOut :=
  loaderStep fs (fsItemBound fs) [Item.inc entry] []

/-! ## Definition Extractor (`extract_defined_acronyms`, source lines 42-58) -/

/-- `extract_defined_acronyms(entries)`: for each record, the first
`\newacronym` match on the line (if any) binds the raw key to its
stripped short and full forms plus the defining location; assignment is
last-write-wins on the key (Python dict semantics). -/
def extract_defined_acronyms (entries : List SrcRec) : List (Str × AcronymDef) :=
  entries.foldl
    (fun defs e =>
      match findNewacronym e.text with
      | some (key, short, full) =>
        upsertAssoc defs key ⟨pyStrip short, pyStrip full, e.path, e.lineNo⟩
      | none => defs)
    []

/-! ## Usage Scanner (`scan_acronyms`, source lines 61-184) -/

/-- The document-start marker. -/
def beginDocumentMarker : Str := "\\begin{document}".data

/-- Body restriction (source lines 66-74): the flag flips on the first
record whose text contains the marker; that record and all later ones are
body content. -/
def contentEntriesAux : List SrcRec → Bool → List SrcRec
  | [], _ => []
  | e :: es, started =>
    let st := started || pyContains e.text beginDocumentMarker
    if st then e :: contentEntriesAux es st else contentEntriesAux es st

/-- The body-content restriction of a record sequence. -/
def contentEntries (entries : List SrcRec) : List SrcRec :=
  contentEntriesAux entries false

/-- Inner loop of the usage scan (source lines 91-95) for one definition
key and one pattern text: append a record per body line in which the
pattern is found. -/
def buildUsageInner (key pat : Str) : List SrcRec → List (Str × List SrcRec) →
    List (Str × List SrcRec)
  | [], m => m
  | e :: es, m =>
    buildUsageInner key pat es
      (if wordPluralSearch pat e.text then appendAssoc m key e else m)

/-- Outer loop of the usage scan (source lines 76-95), for one of the two
collections, selected by `sel` (`full` or `short`).  The source fills
`used_full` and `used_short` in one interleaved pass; the two
`defaultdict`s are independent, so each is built by its own pass. -/
def buildUsage (sel : AcronymDef → Str) :
    List (Str × AcronymDef) → List SrcRec → List (Str × List SrcRec) →
      List (Str × List SrcRec)
  | [], _, m => m
  | (key, d) :: ds, content, m =>
    buildUsage sel ds content (buildUsageInner key (sel d) content m)

/-- Roman numerals excluded from undefined-acronym detection (source
lines 105-106). -/
def romanNumerals : List Str :=
  ["I", "II", "III", "IV", "V", "VI", "VII", "VIII", "IX", "X",
   "XI", "XII", "XIII", "XIV", "XV", "XVI", "XVII", "XVIII", "XIX",
   "XX"].map String.data

/-- The fixed connector-word set of the expansion recoverer (source
line 141). -/
def connectorWords : List Str :=
  ["of", "and", "for", "the", "&", "to", "in", "on", "with", "at", "by",
   "from", "de"].map String.data

/-- Condition on one word of the right-to-left walk (source lines
140-141): starts with an uppercase letter, or is a connector word
(case-insensitively). -/
def isCandidateWord (w : Str) : Bool :=
  (match w with
   | c :: _ => isUpperAscii c
   | [] => false) || pyLower w ∈ connectorWords

/-- Expansion recovery for one occurrence (source lines 120-155): find the
first `(acr)` in the line, take the last 5 whitespace-delimited words of
the stripped text before it, walk them right-to-left while they satisfy
`isCandidateWord`, and accept the resulting phrase when it contains at
least one uppercase-initial word and at most 6 words. -/
def recoverCandidate (acr line : Str) : Option Str :=
  match pyFind line ('(' :: acr ++ [')']) with
  | none => none
  | some pos =>
    let text_before := pyStrip (line.take pos)
    let words := pySplit text_before
    if words = [] then none
    else
      let candidate_words := words.drop (words.length - 5)
      let full_form_words := candidate_words.reverse.takeWhile isCandidateWord
      if full_form_words = [] then none
      else
        let full_form := joinSpace full_form_words.reverse
        let capital_words := full_form_words.filter
          (fun w =>
            match w with
            | c :: _ => isUpperAscii c
            | [] => false)
        if capital_words ≠ [] && full_form_words.length ≤ 6 then some full_form
        else none

/-- Per-token step of undefined-acronym detection (source lines 110-155):
for each parenthesized token of a line that is neither a defined short
form nor a Roman numeral, record the occurrence in `undefined_counts`
and, when expansion recovery succeeds, add the candidate to
`undefined_full_forms`. -/
def procToks (shorts : List Str) (e : SrcRec) :
    List Str → List (Str × List SrcRec) × List (Str × List Str) →
      List (Str × List SrcRec) × List (Str × List Str)
  | [], st => st
  | t :: ts, st =>
    let acr := pyStrip t
    if acr ∈ shorts || acr ∈ romanNumerals then procToks shorts e ts st
    else
      procToks shorts e ts
        (appendAssoc st.1 acr ⟨e.path, e.lineNo, pyStrip e.text⟩,
         match recoverCandidate acr e.text with
         | some ff => addToSetAssoc st.2 acr ff
         | none => st.2)

/-- Line loop of undefined-acronym detection (source line 109). -/
def procContent (shorts : List Str) :
    List SrcRec → List (Str × List SrcRec) × List (Str × List Str) →
      List (Str × List SrcRec) × List (Str × List Str)
  | [], st => st
  | e :: es, st =>
    procContent shorts es (procToks shorts e (findParenTokens e.text) st)

/-- The defined short forms (source line 102). -/
def definedShorts (defs : List (Str × AcronymDef)) : List Str :=
  defs.map (fun e => e.2.short)

/-- `undefined_counts` of a scan (source lines 99, 109-113). -/
def undefCounts (entries : List SrcRec) (defs : List (Str × AcronymDef)) :
    List (Str × List SrcRec) :=
  (procContent (definedShorts defs) (contentEntries entries) ([], [])).1

/-- `undefined_full_forms` of a scan (source lines 100, 115-155). -/
def undefFullForms (entries : List SrcRec) (defs : List (Str × AcronymDef)) :
    List (Str × List Str) :=
  (procContent (definedShorts defs) (contentEntries entries) ([], [])).2

/-- The noise filter (source lines 157-160): only tokens with 2 or more
recorded occurrences contribute to the `undefined` list, every occurrence
of a retained token being kept. -/
def undefinedOf (counts : List (Str × List SrcRec)) : List (Str × SrcRec) :=
  counts.flatMap
    (fun p => if 2 ≤ p.2.length then p.2.map (fun o => (p.1, o)) else [])

/-- Innermost loop of inconsistency detection (source lines 172-175): one
record per body line in which the standalone pattern for `ff` is found. -/
def buildIncoLines (acr ff : Str) :
    List SrcRec → List (Str × List (SrcRec × Str)) →
      List (Str × List (SrcRec × Str))
  | [], m => m
  | e :: es, m =>
    buildIncoLines acr ff es
      (if standaloneSearch ff acr e.text then
        appendAssoc m acr (⟨e.path, e.lineNo, pyStrip e.text⟩, ff)
      else m)

/-- Loop over the recovered long forms of one token (source lines 167-175). -/
def buildIncoForms (content : List SrcRec) (acr : Str) :
    List Str → List (Str × List (SrcRec × Str)) →
      List (Str × List (SrcRec × Str))
  | [], m => m
  | ff :: ffs, m => buildIncoForms content acr ffs (buildIncoLines acr ff content m)

/-- Loop over the tokens with recovered long forms (source lines 166-175). -/
def buildInconsistent (content : List SrcRec) :
    List (Str × List Str) → List (Str × List (SrcRec × Str)) →
      List (Str × List (SrcRec × Str))
  | [], m => m
  | (acr, ffs) :: rest, m =>
    buildInconsistent content rest (buildIncoForms content acr ffs m)

/-- `scan_acronyms(entries, acronym_defs)` (source lines 61-184). -/
def scan_acronyms (entries : List SrcRec) (defs : List (Str × AcronymDef)) :
    ScanReport :=
  let content := contentEntries entries
  let counts_forms := procContent (definedShorts defs) content ([], [])
  { used_full := buildUsage (fun d => d.full) defs content []
    used_short := buildUsage (fun d => d.short) defs content []
    undefined := undefinedOf counts_forms.1
    undefined_full_forms := counts_forms.2
    inconsistent_usage := buildInconsistent content counts_forms.2 [] }

/-- The full analysis of `main` (source lines 544-547): load the document
tree, extract definitions from the full record sequence, scan.  A
propagated loader exception aborts the run (`none`). -/
def run_analysis (fs : FileSys) (entry : Str) :
    Option (List (Str × AcronymDef) × ScanReport) :=
  match read_latex_recursive fs entry with
  | .ok entries _ =>
    some (extract_defined_acronyms entries,
      scan_acronyms entries (extract_defined_acronyms entries))
  | _ => none

/-- Two invocations of the full analysis in sequence.  The source's only
mutable state, the loader's visited set, is allocated fresh inside each
top-level call (`seen = None` default, source lines 18-21), so a second
run shares nothing with the first; the pair below is the faithful model
of running the program twice on an unchanged tree. -/
def run_analysis_twice (fs : FileSys) (entry : Str) :
    Option (List (Str × AcronymDef) × ScanReport) ×
      Option (List (Str × AcronymDef) × ScanReport) :=
  (run_analysis fs entry, run_analysis fs entry)

/-! ## Sentence Extractor (`extract_sentence_containing_text`,
source lines 187-297) -/

/-- The fixed abbreviation list of the boundary test (source line 206). -/
def sentenceAbbreviations : List Str :=
  ["e.g", "i.e", "etc", "vs", "cf", "al", "fig", "eq", "sec", "ch", "vol",
   "ed", "pp", "no", "mr", "mrs", "dr", "prof", "inc", "ltd",
   "corp"].map String.data

/-- `re.search(r'\S+@\S+$', s)` (source line 215): `s` ends in a non-space
run, an `@`, and a further non-empty non-space run. -/
def emailEndSearch (s : Str) : Bool :=
  (List.range s.length).any fun k =>
    k ≠ 0 &&
      (match s.drop (k - 1) with
       | p :: '@' :: rest =>
         !isPySpace p && !rest.isEmpty && rest.all (fun c => !isPySpace c)
       | _ => false)

/-- `is_sentence_boundary(text, pos)` (source lines 196-233). -/
def is_sentence_boundary (text : Str) (pos : Nat) : Bool :=
  match text.drop pos with
  | [] => false
  | c :: _ =>
    if !(c = '.' || c = '!' || c = '?') then false
    else
      let before_context := pyLower (pySlice text (pos - 10) pos)
      let after_context :=
        if pos + 1 < text.length then pySlice text (pos + 1) (pos + 5) else []
      if sentenceAbbreviations.any (fun a => pyEndsWith before_context a) then
        false
      else if 0 < pos && pos < text.length - 1 && emailEndSearch before_context
          && !pyStartsWith after_context [' '] then false
      else if pyContains before_context "http".data
          || pyContains before_context "www".data then false
      else if 0 < pos && pos < text.length - 1 &&
          (match text.drop (pos - 1) with
           | a :: _ => isDigitAscii a
           | [] => false) &&
          (match text.drop (pos + 1) with
           | b :: _ => isDigitAscii b
           | [] => false) then false
      else if (match after_context with
               | b :: _ => isLowerAscii b
               | [] => false) then false
      else true

/-- The fixed ordered break-token list of the narrowing step (source
line 260). -/
def sentenceBreakChars : List Str :=
  [";", ",", ":", "--", " and ", " but ", " while ", " although "].map
    String.data

/-- First break token (in list order) matching at position `i` (source
lines 267-268, 277-278). -/
def firstBreakAt (s : Str) (i : Nat) : Option Str :=
  sentenceBreakChars.find? (fun bc => pySlice s i (i + bc.length) = bc)

/-- The backward best-start loop of the narrowing step (source lines
265-272): walk `i` from `context_before` down to 1; the first break-token
match whose end differs from `context_before` wins; otherwise
`context_before`. -/
def findBestStart (s : Str) (cb : Nat) : Nat :=
  (((List.range' 1 cb).reverse.findSome? fun i =>
      match firstBreakAt s i with
      | some bc => if i + bc.length ≠ cb then some (i + bc.length) else none
      | none => none).getD cb)

/-- The forward best-end loop of the narrowing step (source lines
274-281). -/
def findBestEnd (s : Str) (ca : Nat) : Nat :=
  (((List.range' ca (s.length - ca)).findSome? fun i =>
      match firstBreakAt s i with
      | some _ => if i ≠ ca then some i else none
      | none => none).getD ca)

/-- Boundary scan both ways plus the length-bounded narrowing step for a
found target (source lines 195-288): the sentence candidate entering the
final short-sentence check. -/
def sentenceCandidate (text target_text : Str) (target_pos : Nat) : Str :=
  let sentence_start :=
    ((((List.range target_pos).reverse.find?
        (fun i => is_sentence_boundary text i)).map (· + 1)).getD 0)
  let sentence_end :=
    ((((List.range' target_pos (text.length - target_pos)).find?
        (fun i => is_sentence_boundary text i)).map (· + 1)).getD
      text.length)
  let sentence := pyStrip (pySlice text sentence_start sentence_end)
  if 400 < sentence.length then
    let context_before := (target_pos - sentence_start) - 100
    let context_after :=
      min sentence.length (target_pos - sentence_start + 150)
    let best_start := findBestStart sentence context_before
    let best_end := findBestEnd sentence context_after
    let focused := pyStrip (pySlice sentence best_start best_end)
    if pyContains focused target_text = true ∧ 30 < focused.length then
      focused
    else sentence
  else sentence

/-- `extract_sentence_containing_text(text, target_text)` (source lines
187-297): not-found fallback, boundary scan both ways, length-bounded
narrowing, and the final short-sentence window fallback. -/
def extract_sentence_containing_text (text target_text : Str) : Str :=
  match pyFind text target_text with
  | none => pyStrip text
  | some target_pos =>
    if (sentenceCandidate text target_text target_pos).length < 20 ∨
        pyContains (sentenceCandidate text target_text target_pos)
          target_text = false then
      pyStrip (pySlice text (target_pos - 150) (target_pos + 200))
    else sentenceCandidate text target_text target_pos

/-! ## Association-list lemmas -/

theorem lookupAssoc_appendAssoc_self {α : Type} (m : List (Str × List α))
    (k : Str) (v : α) :
    lookupAssoc (appendAssoc m k v) k = some (lookupListAssoc m k ++ [v]) := by
  induction m with
  | nil => simp [appendAssoc, lookupAssoc, lookupListAssoc]
  | cons h t ih =>
    obtain ⟨k', vs⟩ := h
    by_cases hk : k' = k
    · subst hk; simp [appendAssoc, lookupAssoc, lookupListAssoc]
    · simp [appendAssoc, hk, lookupAssoc, lookupListAssoc, ih]

theorem lookupAssoc_appendAssoc_ne {α : Type} (m : List (Str × List α))
    (k k' : Str) (v : α) (hk : k' ≠ k) :
    lookupAssoc (appendAssoc m k v) k' = lookupAssoc m k' := by
  induction m with
  | nil => simp [appendAssoc, lookupAssoc, Ne.symm hk]
  | cons h t ih =>
    obtain ⟨k0, vs⟩ := h
    by_cases hk0 : k0 = k
    · subst hk0; simp [appendAssoc, lookupAssoc, Ne.symm hk]
    · simp [appendAssoc, hk0, lookupAssoc, ih]

theorem lookupListAssoc_appendAssoc_self {α : Type} (m : List (Str × List α))
    (k : Str) (v : α) :
    lookupListAssoc (appendAssoc m k v) k = lookupListAssoc m k ++ [v] := by
  simp [lookupListAssoc, lookupAssoc_appendAssoc_self]

theorem lookupListAssoc_appendAssoc_ne {α : Type} (m : List (Str × List α))
    (k k' : Str) (v : α) (hk : k' ≠ k) :
    lookupListAssoc (appendAssoc m k v) k' = lookupListAssoc m k' := by
  simp [lookupListAssoc, lookupAssoc_appendAssoc_ne m k k' v hk]

theorem lookupAssoc_addToSetAssoc_self (m : List (Str × List Str))
    (k v : Str) :
    lookupAssoc (addToSetAssoc m k v) k =
      some (if v ∈ lookupListAssoc m k then lookupListAssoc m k
            else lookupListAssoc m k ++ [v]) := by
  induction m with
  | nil => simp [addToSetAssoc, lookupAssoc, lookupListAssoc]
  | cons h t ih =>
    obtain ⟨k', vs⟩ := h
    by_cases hk : k' = k
    · subst hk; simp [addToSetAssoc, lookupAssoc, lookupListAssoc]
    · simp [addToSetAssoc, hk, lookupAssoc, lookupListAssoc, ih]

theorem lookupAssoc_addToSetAssoc_ne (m : List (Str × List Str))
    (k k' v : Str) (hk : k' ≠ k) :
    lookupAssoc (addToSetAssoc m k v) k' = lookupAssoc m k' := by
  induction m with
  | nil => simp [addToSetAssoc, lookupAssoc, Ne.symm hk]
  | cons h t ih =>
    obtain ⟨k0, vs⟩ := h
    by_cases hk0 : k0 = k
    · subst hk0; simp [addToSetAssoc, lookupAssoc, Ne.symm hk]
    · simp [addToSetAssoc, hk0, lookupAssoc, ih]

theorem mem_lookupListAssoc_addToSetAssoc_self (m : List (Str × List Str))
    (k v : Str) :
    v ∈ lookupListAssoc (addToSetAssoc m k v) k := by
  simp only [lookupListAssoc, lookupAssoc_addToSetAssoc_self, Option.getD_some]
  by_cases hv : v ∈ (lookupAssoc m k).getD ([] : List Str) <;> simp [hv]

theorem mem_lookupListAssoc_addToSetAssoc (m : List (Str × List Str))
    (k k' v x : Str) (hx : x ∈ lookupListAssoc m k') :
    x ∈ lookupListAssoc (addToSetAssoc m k v) k' := by
  by_cases hk : k' = k
  · subst hk
    simp only [lookupListAssoc, lookupAssoc_addToSetAssoc_self, Option.getD_some]
    by_cases hv : v ∈ lookupListAssoc m k' <;> simp_all [lookupListAssoc]
  · simpa [lookupListAssoc, lookupAssoc_addToSetAssoc_ne m k k' v hk] using hx

theorem mem_assocKeys_appendAssoc {α : Type} (m : List (Str × List α))
    (k k' : Str) (v : α) :
    k' ∈ assocKeys (appendAssoc m k v) ↔ k' ∈ assocKeys m ∨ k' = k := by
  induction m with
  | nil => simp [appendAssoc, assocKeys]
  | cons h t ih =>
    obtain ⟨k0, vs⟩ := h
    by_cases hk0 : k0 = k
    · subst hk0; simp [appendAssoc, assocKeys]; tauto
    · simp [appendAssoc, hk0, assocKeys] at ih ⊢; tauto

theorem nodup_assocKeys_appendAssoc {α : Type} (m : List (Str × List α))
    (k : Str) (v : α) (h : (assocKeys m).Nodup) :
    (assocKeys (appendAssoc m k v)).Nodup := by
  induction m with
  | nil => simp [appendAssoc, assocKeys]
  | cons hd t ih =>
    obtain ⟨k0, vs⟩ := hd
    simp only [assocKeys, List.map_cons, List.nodup_cons] at h
    by_cases hk0 : k0 = k
    · subst hk0; simpa [appendAssoc, assocKeys, List.nodup_cons] using h
    · have := ih h.2
      simp only [appendAssoc, hk0, if_false, assocKeys, List.map_cons,
        List.nodup_cons]
      refine ⟨fun hc => ?_, this⟩
      rw [show (appendAssoc t k v).map Prod.fst = assocKeys (appendAssoc t k v)
        from rfl] at hc
      rcases (mem_assocKeys_appendAssoc t k k0 v).mp hc with h1 | h1
      · exact h.1 h1
      · exact hk0 h1

theorem mem_assocKeys_addToSetAssoc (m : List (Str × List Str))
    (k k' v : Str) :
    k' ∈ assocKeys (addToSetAssoc m k v) ↔ k' ∈ assocKeys m ∨ k' = k := by
  induction m with
  | nil => simp [addToSetAssoc, assocKeys]
  | cons h t ih =>
    obtain ⟨k0, vs⟩ := h
    by_cases hk0 : k0 = k
    · subst hk0; simp [addToSetAssoc, assocKeys]; tauto
    · simp [addToSetAssoc, hk0, assocKeys] at ih ⊢; tauto

theorem nodup_assocKeys_addToSetAssoc (m : List (Str × List Str))
    (k v : Str) (h : (assocKeys m).Nodup) :
    (assocKeys (addToSetAssoc m k v)).Nodup := by
  induction m with
  | nil => simp [addToSetAssoc, assocKeys]
  | cons hd t ih =>
    obtain ⟨k0, vs⟩ := hd
    simp only [assocKeys, List.map_cons, List.nodup_cons] at h
    by_cases hk0 : k0 = k
    · subst hk0; simpa [addToSetAssoc, assocKeys, List.nodup_cons] using h
    · have := ih h.2
      simp only [addToSetAssoc, hk0, if_false, assocKeys, List.map_cons,
        List.nodup_cons]
      refine ⟨fun hc => ?_, this⟩
      rw [show (addToSetAssoc t k v).map Prod.fst = assocKeys (addToSetAssoc t k v)
        from rfl] at hc
      rcases (mem_assocKeys_addToSetAssoc t k k0 v).mp hc with h1 | h1
      · exact h.1 h1
      · exact hk0 h1

theorem lookupAssoc_eq_of_mem_nodup {α : Type} (m : List (Str × α))
    (k : Str) (v : α) (hnd : (assocKeys m).Nodup) (hm : (k, v) ∈ m) :
    lookupAssoc m k = some v := by
  induction m with
  | nil => simp at hm
  | cons hd t ih =>
    obtain ⟨k0, v0⟩ := hd
    simp only [assocKeys, List.map_cons, List.nodup_cons] at hnd
    rcases List.mem_cons.mp hm with h1 | h1
    · obtain ⟨rfl, rfl⟩ := Prod.mk.injEq .. ▸ h1
      injection h1 with h2 h3
      simp [lookupAssoc]
    · have hk0 : k0 ≠ k := by
        rintro rfl
        exact hnd.1 (List.mem_map.mpr ⟨(k0, v), h1, rfl⟩)
      simp [lookupAssoc, hk0, ih hnd.2 h1]

/-! ## Usage-scan lemmas -/

theorem buildUsageInner_lookup_self (key pat : Str) (content : List SrcRec)
    (m : List (Str × List SrcRec)) :
    lookupListAssoc (buildUsageInner key pat content m) key =
      lookupListAssoc m key ++
        content.filter (fun e => wordPluralSearch pat e.text) := by
  induction content generalizing m with
  | nil => simp [buildUsageInner]
  | cons e es ih =>
    by_cases hs : wordPluralSearch pat e.text
    · simp [buildUsageInner, hs, ih, lookupListAssoc_appendAssoc_self,
        List.filter_cons, List.append_assoc]
    · simp [buildUsageInner, hs, ih, List.filter_cons]

theorem buildUsageInner_lookup_ne (key key' pat : Str) (content : List SrcRec)
    (m : List (Str × List SrcRec)) (hk : key' ≠ key) :
    lookupAssoc (buildUsageInner key pat content m) key' = lookupAssoc m key' := by
  induction content generalizing m with
  | nil => simp [buildUsageInner]
  | cons e es ih =>
    by_cases hs : wordPluralSearch pat e.text
    · simp [buildUsageInner, hs, ih, lookupAssoc_appendAssoc_ne m key key' e hk]
    · simp [buildUsageInner, hs, ih]

theorem buildUsage_lookup_notmem (sel : AcronymDef → Str)
    (defs : List (Str × AcronymDef)) (content : List SrcRec)
    (m : List (Str × List SrcRec)) (key : Str)
    (h : key ∉ assocKeys defs) :
    lookupAssoc (buildUsage sel defs content m) key = lookupAssoc m key := by
  induction defs generalizing m with
  | nil => simp [buildUsage]
  | cons hd ds ih =>
    obtain ⟨k1, d1⟩ := hd
    rw [show assocKeys ((k1, d1) :: ds) = k1 :: assocKeys ds from rfl,
      List.mem_cons] at h
    push_neg at h
    simp only [buildUsage]
    rw [ih (buildUsageInner k1 (sel d1) content m) h.2,
      buildUsageInner_lookup_ne k1 key (sel d1) content m h.1]

theorem buildUsage_lookup (sel : AcronymDef → Str)
    (defs : List (Str × AcronymDef)) (content : List SrcRec)
    (m : List (Str × List SrcRec)) (key : Str) (d : AcronymDef)
    (hnd : (assocKeys defs).Nodup) (h : lookupAssoc defs key = some d) :
    lookupListAssoc (buildUsage sel defs content m) key =
      lookupListAssoc m key ++
        content.filter (fun e => wordPluralSearch (sel d) e.text) := by
  induction defs generalizing m with
  | nil => simp [lookupAssoc] at h
  | cons hd ds ih =>
    obtain ⟨k1, d1⟩ := hd
    rw [show assocKeys ((k1, d1) :: ds) = k1 :: assocKeys ds from rfl,
      List.nodup_cons] at hnd
    by_cases hk1 : k1 = key
    · subst hk1
      have hd1 : d1 = d := by
        rw [show lookupAssoc ((k1, d1) :: ds) k1 = some d1 from by
          simp [lookupAssoc]] at h
        exact Option.some.inj h
      subst hd1
      simp only [buildUsage]
      have h2 := buildUsage_lookup_notmem sel ds content
        (buildUsageInner k1 (sel d1) content m) k1 hnd.1
      have h3 := buildUsageInner_lookup_self k1 (sel d1) content m
      simp only [lookupListAssoc] at h3 ⊢
      rw [h2, h3]
    · have h' : lookupAssoc ds key = some d := by
        rw [show lookupAssoc ((k1, d1) :: ds) key = lookupAssoc ds key from by
          simp [lookupAssoc, hk1]] at h
        exact h
      simp only [buildUsage]
      rw [ih (buildUsageInner k1 (sel d1) content m) hnd.2 h']
      congr 1
      simp only [lookupListAssoc]
      rw [buildUsageInner_lookup_ne k1 key (sel d1) content m
        (fun hc => hk1 hc.symm)]

/-! ## Undefined-token bookkeeping lemmas -/

theorem procToks_nodup (shorts : List Str) (e : SrcRec) (ts : List Str)
    (st : List (Str × List SrcRec) × List (Str × List Str))
    (h1 : (assocKeys st.1).Nodup) (h2 : (assocKeys st.2).Nodup) :
    (assocKeys (procToks shorts e ts st).1).Nodup ∧
      (assocKeys (procToks shorts e ts st).2).Nodup := by
  induction ts generalizing st with
  | nil => exact ⟨h1, h2⟩
  | cons t ts ih =>
    simp only [procToks]
    split
    · exact ih st h1 h2
    · refine ih _ (nodup_assocKeys_appendAssoc _ _ _ h1) ?_
      cases hrec : recoverCandidate (pyStrip t) e.text with
      | none => simpa using h2
      | some ff => simpa using nodup_assocKeys_addToSetAssoc _ _ _ h2

theorem procContent_nodup (shorts : List Str) (content : List SrcRec)
    (st : List (Str × List SrcRec) × List (Str × List Str))
    (h1 : (assocKeys st.1).Nodup) (h2 : (assocKeys st.2).Nodup) :
    (assocKeys (procContent shorts content st).1).Nodup ∧
      (assocKeys (procContent shorts content st).2).Nodup := by
  induction content generalizing st with
  | nil => exact ⟨h1, h2⟩
  | cons e es ih =>
    simp only [procContent]
    have := procToks_nodup shorts e (findParenTokens e.text) st h1 h2
    exact ih _ this.1 this.2

theorem not_mem_undefinedOf_of_not_key (counts : List (Str × List SrcRec))
    (a : Str) (o : SrcRec) (h : a ∉ assocKeys counts) :
    (a, o) ∉ undefinedOf counts := by
  induction counts with
  | nil => simp [undefinedOf]
  | cons hd t ih =>
    obtain ⟨a1, os⟩ := hd
    rw [show assocKeys ((a1, os) :: t) = a1 :: assocKeys t from rfl,
      List.mem_cons] at h
    push_neg at h
    simp only [undefinedOf, List.flatMap_cons]
    intro hc
    rcases List.mem_append.mp hc with hc | hc
    · by_cases h2 : 2 ≤ os.length
      · rw [if_pos h2] at hc
        obtain ⟨x, _, hx⟩ := List.mem_map.mp hc
        exact h.1 (congrArg Prod.fst hx).symm
      · rw [if_neg h2] at hc
        simp at hc
    · exact ih h.2 hc

theorem mem_undefinedOf (counts : List (Str × List SrcRec)) (a : Str)
    (occs : List SrcRec) (o : SrcRec)
    (h : lookupAssoc counts a = some occs) (h2 : 2 ≤ occs.length)
    (ho : o ∈ occs) : (a, o) ∈ undefinedOf counts := by
  induction counts with
  | nil => simp [lookupAssoc] at h
  | cons hd t ih =>
    obtain ⟨a1, os⟩ := hd
    by_cases ha : a1 = a
    · subst ha
      have hos : os = occs := by
        rw [show lookupAssoc ((a1, os) :: t) a1 = some os from by
          simp [lookupAssoc]] at h
        exact Option.some.inj h
      subst hos
      simp only [undefinedOf, List.flatMap_cons]
      refine List.mem_append.mpr (Or.inl ?_)
      rw [if_pos h2]
      exact List.mem_map.mpr ⟨o, ho, rfl⟩
    · have h' : lookupAssoc t a = some occs := by
        rw [show lookupAssoc ((a1, os) :: t) a = lookupAssoc t a from by
          simp [lookupAssoc, ha]] at h
        exact h
      simp only [undefinedOf, List.flatMap_cons]
      exact List.mem_append.mpr (Or.inr (ih h'))

theorem not_mem_undefinedOf_single (counts : List (Str × List SrcRec))
    (a : Str) (occs : List SrcRec) (o : SrcRec)
    (hnd : (assocKeys counts).Nodup)
    (h : lookupAssoc counts a = some occs) (h1 : occs.length = 1) :
    (a, o) ∉ undefinedOf counts := by
  induction counts with
  | nil => simp [undefinedOf]
  | cons hd t ih =>
    obtain ⟨a1, os⟩ := hd
    rw [show assocKeys ((a1, os) :: t) = a1 :: assocKeys t from rfl,
      List.nodup_cons] at hnd
    by_cases ha : a1 = a
    · subst ha
      have hos : os = occs := by
        rw [show lookupAssoc ((a1, os) :: t) a1 = some os from by
          simp [lookupAssoc]] at h
        exact Option.some.inj h
      subst hos
      simp only [undefinedOf, List.flatMap_cons]
      intro hc
      rcases List.mem_append.mp hc with hc | hc
      · rw [if_neg (by omega)] at hc
        simp at hc
      · exact not_mem_undefinedOf_of_not_key t a1 o hnd.1 hc
    · have h' : lookupAssoc t a = some occs := by
        rw [show lookupAssoc ((a1, os) :: t) a = lookupAssoc t a from by
          simp [lookupAssoc, ha]] at h
        exact h
      simp only [undefinedOf, List.flatMap_cons]
      intro hc
      rcases List.mem_append.mp hc with hc | hc
      · by_cases h2 : 2 ≤ os.length
        · rw [if_pos h2] at hc
          obtain ⟨x, _, hx⟩ := List.mem_map.mp hc
          exact ha (congrArg Prod.fst hx)
        · rw [if_neg h2] at hc
          simp at hc
      · exact ih hnd.2 h' hc

theorem procToks_forms_mono (shorts : List Str) (e : SrcRec) (ts : List Str)
    (st : List (Str × List SrcRec) × List (Str × List Str)) (a x : Str)
    (hx : x ∈ lookupListAssoc st.2 a) :
    x ∈ lookupListAssoc (procToks shorts e ts st).2 a := by
  induction ts generalizing st with
  | nil => exact hx
  | cons t ts ih =>
    simp only [procToks]
    split
    · exact ih st hx
    · apply ih
      cases hrec : recoverCandidate (pyStrip t) e.text with
      | none => simpa [hrec] using hx
      | some ff =>
        simp only [hrec]
        exact mem_lookupListAssoc_addToSetAssoc st.2 (pyStrip t) a ff x hx

theorem procContent_forms_mono (shorts : List Str) (content : List SrcRec)
    (st : List (Str × List SrcRec) × List (Str × List Str)) (a x : Str)
    (hx : x ∈ lookupListAssoc st.2 a) :
    x ∈ lookupListAssoc (procContent shorts content st).2 a := by
  induction content generalizing st with
  | nil => exact hx
  | cons e es ih =>
    simp only [procContent]
    exact ih _ (procToks_forms_mono shorts e (findParenTokens e.text) st a x hx)

theorem procToks_forms_mem (shorts : List Str) (e : SrcRec) (ts : List Str)
    (st : List (Str × List SrcRec) × List (Str × List Str)) (a ff t : Str)
    (ht : t ∈ ts) (ha : pyStrip t = a) (hs : a ∉ shorts)
    (hr : a ∉ romanNumerals)
    (hrec : recoverCandidate a e.text = some ff) :
    ff ∈ lookupListAssoc (procToks shorts e ts st).2 a := by
  induction ts generalizing st with
  | nil => cases ht
  | cons t0 ts ih =>
    rcases List.mem_cons.mp ht with heq | hmem
    · subst heq
      simp only [procToks, ha]
      rw [if_neg (by simp [hs, hr])]
      apply procToks_forms_mono
      simp only [hrec]
      exact mem_lookupListAssoc_addToSetAssoc_self st.2 a ff
    · simp only [procToks]
      split
      · exact ih st hmem
      · exact ih _ hmem

theorem procContent_forms_mem (shorts : List Str) (content : List SrcRec)
    (st : List (Str × List SrcRec) × List (Str × List Str)) (a ff : Str)
    (e : SrcRec) (he : e ∈ content)
    (ht : ∃ t ∈ findParenTokens e.text, pyStrip t = a)
    (hs : a ∉ shorts) (hr : a ∉ romanNumerals)
    (hrec : recoverCandidate a e.text = some ff) :
    ff ∈ lookupListAssoc (procContent shorts content st).2 a := by
  induction content generalizing st with
  | nil => cases he
  | cons e0 es ih =>
    rcases List.mem_cons.mp he with heq | hmem
    · subst heq
      simp only [procContent]
      apply procContent_forms_mono
      obtain ⟨t, ht1, ht2⟩ := ht
      exact procToks_forms_mem shorts e (findParenTokens e.text) st a ff t
        ht1 ht2 hs hr hrec
    · simp only [procContent]
      exact ih _ hmem

/-! ## Inconsistency-detection lemmas -/

theorem mem_lookupListAssoc_appendAssoc {α : Type} (m : List (Str × List α))
    (k a : Str) (v x : α) (hx : x ∈ lookupListAssoc m a) :
    x ∈ lookupListAssoc (appendAssoc m k v) a := by
  by_cases hk : a = k
  · subst hk
    rw [lookupListAssoc_appendAssoc_self]
    exact List.mem_append_left _ hx
  · rw [lookupListAssoc_appendAssoc_ne m k a v hk]
    exact hx

theorem buildIncoLines_lookup_self (acr ff : Str) (content : List SrcRec)
    (m : List (Str × List (SrcRec × Str))) :
    lookupListAssoc (buildIncoLines acr ff content m) acr =
      lookupListAssoc m acr ++
        (content.filter (fun e => standaloneSearch ff acr e.text)).map
          (fun e => ((⟨e.path, e.lineNo, pyStrip e.text⟩ : SrcRec), ff)) := by
  induction content generalizing m with
  | nil => simp [buildIncoLines]
  | cons e es ih =>
    by_cases hs : standaloneSearch ff acr e.text
    · simp [buildIncoLines, hs, ih, lookupListAssoc_appendAssoc_self,
        List.filter_cons, List.append_assoc]
    · simp [buildIncoLines, hs, ih, List.filter_cons]

theorem buildIncoLines_lookup_ne (acr a ff : Str) (content : List SrcRec)
    (m : List (Str × List (SrcRec × Str))) (h : a ≠ acr) :
    lookupAssoc (buildIncoLines acr ff content m) a = lookupAssoc m a := by
  induction content generalizing m with
  | nil => simp [buildIncoLines]
  | cons e es ih =>
    by_cases hs : standaloneSearch ff acr e.text
    · simp [buildIncoLines, hs, ih, lookupAssoc_appendAssoc_ne m acr a _ h]
    · simp [buildIncoLines, hs, ih]

theorem buildIncoLines_mono (acr ff a : Str) (content : List SrcRec)
    (m : List (Str × List (SrcRec × Str))) (x : SrcRec × Str)
    (hx : x ∈ lookupListAssoc m a) :
    x ∈ lookupListAssoc (buildIncoLines acr ff content m) a := by
  induction content generalizing m with
  | nil => exact hx
  | cons e es ih =>
    simp only [buildIncoLines]
    split
    · exact ih _ (mem_lookupListAssoc_appendAssoc m acr a _ x hx)
    · exact ih _ hx

theorem buildIncoForms_mono (content : List SrcRec) (acr a : Str)
    (ffs : List Str) (m : List (Str × List (SrcRec × Str))) (x : SrcRec × Str)
    (hx : x ∈ lookupListAssoc m a) :
    x ∈ lookupListAssoc (buildIncoForms content acr ffs m) a := by
  induction ffs generalizing m with
  | nil => exact hx
  | cons ff ffs ih =>
    exact ih _ (buildIncoLines_mono acr ff a content m x hx)

theorem buildIncoForms_lookup_ne (content : List SrcRec) (acr a : Str)
    (ffs : List Str) (m : List (Str × List (SrcRec × Str))) (h : a ≠ acr) :
    lookupAssoc (buildIncoForms content acr ffs m) a = lookupAssoc m a := by
  induction ffs generalizing m with
  | nil => rfl
  | cons ff ffs ih =>
    simp only [buildIncoForms]
    rw [ih _, buildIncoLines_lookup_ne acr a ff content m h]

theorem buildIncoForms_mem (content : List SrcRec) (acr : Str)
    (ffs : List Str) (m : List (Str × List (SrcRec × Str))) (ff : Str)
    (e : SrcRec) (hff : ff ∈ ffs) (he : e ∈ content)
    (hs : standaloneSearch ff acr e.text = true) :
    ((⟨e.path, e.lineNo, pyStrip e.text⟩ : SrcRec), ff) ∈
      lookupListAssoc (buildIncoForms content acr ffs m) acr := by
  induction ffs generalizing m with
  | nil => cases hff
  | cons ff0 ffs ih =>
    rcases List.mem_cons.mp hff with heq | hmem
    · subst heq
      simp only [buildIncoForms]
      apply buildIncoForms_mono
      rw [buildIncoLines_lookup_self]
      refine List.mem_append_right _ (List.mem_map.mpr ⟨e, ?_, rfl⟩)
      exact List.mem_filter.mpr ⟨he, hs⟩
    · exact ih _ hmem

theorem buildIncoForms_sound (content : List SrcRec) (acr : Str)
    (ffs : List Str) (m : List (Str × List (SrcRec × Str))) (x : SrcRec × Str)
    (hx : x ∈ lookupListAssoc (buildIncoForms content acr ffs m) acr) :
    x ∈ lookupListAssoc m acr ∨
      ∃ ff ∈ ffs, ∃ e ∈ content, standaloneSearch ff acr e.text = true ∧
        x = ((⟨e.path, e.lineNo, pyStrip e.text⟩ : SrcRec), ff) := by
  induction ffs generalizing m with
  | nil => exact Or.inl hx
  | cons ff0 ffs ih =>
    rcases ih _ hx with h1 | h1
    · rw [buildIncoLines_lookup_self] at h1
      rcases List.mem_append.mp h1 with h2 | h2
      · exact Or.inl h2
      · obtain ⟨e, he, hpe⟩ := List.mem_map.mp h2
        obtain ⟨he1, he2⟩ := List.mem_filter.mp he
        exact Or.inr ⟨ff0, List.mem_cons_self _ _, e, he1, he2, hpe.symm⟩
    · obtain ⟨ff, hff, e, he, hs, hxe⟩ := h1
      exact Or.inr ⟨ff, List.mem_cons_of_mem _ hff, e, he, hs, hxe⟩

theorem buildInconsistent_mono (content : List SrcRec)
    (fms : List (Str × List Str)) (m : List (Str × List (SrcRec × Str)))
    (a : Str) (x : SrcRec × Str) (hx : x ∈ lookupListAssoc m a) :
    x ∈ lookupListAssoc (buildInconsistent content fms m) a := by
  induction fms generalizing m with
  | nil => exact hx
  | cons hd rest ih =>
    obtain ⟨acr, ffs⟩ := hd
    exact ih _ (buildIncoForms_mono content acr a ffs m x hx)

theorem buildInconsistent_sound (content : List SrcRec)
    (fms : List (Str × List Str)) (m : List (Str × List (SrcRec × Str)))
    (a : Str) (x : SrcRec × Str)
    (hx : x ∈ lookupListAssoc (buildInconsistent content fms m) a) :
    x ∈ lookupListAssoc m a ∨
      ∃ ffs, (a, ffs) ∈ fms ∧ ∃ ff ∈ ffs, ∃ e ∈ content,
        standaloneSearch ff a e.text = true ∧
          x = ((⟨e.path, e.lineNo, pyStrip e.text⟩ : SrcRec), ff) := by
  induction fms generalizing m with
  | nil => exact Or.inl hx
  | cons hd rest ih =>
    obtain ⟨acr, ffs⟩ := hd
    rcases ih _ hx with h1 | h1
    · by_cases ha : a = acr
      · subst ha
        rcases buildIncoForms_sound content a ffs m x h1 with h2 | h2
        · exact Or.inl h2
        · obtain ⟨ff, hff, e, he, hs, hxe⟩ := h2
          exact Or.inr ⟨ffs, List.mem_cons_self _ _, ff, hff, e, he, hs, hxe⟩
      · rw [show lookupListAssoc (buildIncoForms content acr ffs m) a =
            lookupListAssoc m a from by
          simp only [lookupListAssoc, buildIncoForms_lookup_ne content acr a
            ffs m ha]] at h1
        exact Or.inl h1
    · obtain ⟨ffs0, hmem, rest0⟩ := h1
      exact Or.inr ⟨ffs0, List.mem_cons_of_mem _ hmem, rest0⟩

theorem buildInconsistent_mem (content : List SrcRec)
    (fms : List (Str × List Str)) (m : List (Str × List (SrcRec × Str)))
    (a : Str) (ffs : List Str) (ff : Str) (e : SrcRec)
    (hnd : (assocKeys fms).Nodup) (hl : lookupAssoc fms a = some ffs)
    (hff : ff ∈ ffs) (he : e ∈ content)
    (hs : standaloneSearch ff a e.text = true) :
    ((⟨e.path, e.lineNo, pyStrip e.text⟩ : SrcRec), ff) ∈
      lookupListAssoc (buildInconsistent content fms m) a := by
  induction fms generalizing m with
  | nil => simp [lookupAssoc] at hl
  | cons hd rest ih =>
    obtain ⟨a1, ffs1⟩ := hd
    rw [show assocKeys ((a1, ffs1) :: rest) = a1 :: assocKeys rest from rfl,
      List.nodup_cons] at hnd
    by_cases ha : a1 = a
    · subst ha
      have hffs : ffs1 = ffs := by
        rw [show lookupAssoc ((a1, ffs1) :: rest) a1 = some ffs1 from by
          simp [lookupAssoc]] at hl
        exact Option.some.inj hl
      subst hffs
      simp only [buildInconsistent]
      apply buildInconsistent_mono
      exact buildIncoForms_mem content a1 ffs1 m ff e hff he hs
    · have hl' : lookupAssoc rest a = some ffs := by
        rw [show lookupAssoc ((a1, ffs1) :: rest) a = lookupAssoc rest a from by
          simp [lookupAssoc, ha]] at hl
        exact hl
      simp only [buildInconsistent]
      exact ih _ hnd.2 hl' 

/-! ## Loader lemmas -/

/-- Is this item a record with path `p`? -/
def isRecOf (p : Str) : Item → Bool
  | .record r => decide (r.path = p)
  | .inc _ => false

/-- Number of record items with path `p` in a worklist. -/
def itemRecCount (items : List Item) (p : Str) : Nat :=
  items.countP (isRecOf p)

/-- Number of lines of the readable file `p` (0 if missing or unreadable). -/
def fileLineCount (fs : FileSys) (p : Str) : Nat :=
  match lookupAssoc fs p with
  | some (some lines) => lines.length
  | _ => 0

/-- Worklist weight of one filesystem entry. -/
def entryWeight : Str × Option (List Str) → Nat
  | (f, some lines) => (mkItems f lines).length
  | (_, none) => 0

/-- Total worklist weight of the not-yet-visited filesystem entries. -/
def unseenSum (fs : FileSys) (seen : List Str) : Nat :=
  ((fs.filter (fun e => decide (e.1 ∉ seen))).map entryWeight).sum

theorem itemRecCount_mkItemsAux (path : Str) (i : Nat) (lines : List Str)
    (p : Str) :
    itemRecCount (mkItemsAux path i lines) p =
      if path = p then lines.length else 0 := by
  induction lines generalizing i with
  | nil => simp [mkItemsAux, itemRecCount]
  | cons l rest ih =>
    simp only [mkItemsAux, itemRecCount, List.countP_cons, List.countP_append]
    have hz : ((scanIncludes l).map
        (fun s => Item.inc (normalizeInc s))).countP (isRecOf p) = 0 := by
      rw [List.countP_eq_zero]
      intro a ha
      obtain ⟨s, _, rfl⟩ := List.mem_map.mp ha
      simp [isRecOf]
    rw [hz]
    simp only [itemRecCount] at ih
    rw [ih (i + 1)]
    by_cases hp : path = p <;> simp [isRecOf, hp]

theorem loaderStep_mono (fs : FileSys) (fuel : Nat) :
    ∀ (items : List Item) (seen : List Str) (out : List SrcRec)
      (seen' : List Str), loaderStep fs fuel items seen = .ok out seen' →
        seen ⊆ seen' := by
  induction fuel with
  | zero =>
    intro items seen out seen' h
    cases items with
    | nil =>
      simp only [loaderStep, LoadOut.ok.injEq] at h
      exact h.2 ▸ List.Subset.refl seen
    | cons item rest => simp [loaderStep] at h
  | succ fuel ih =>
    intro items seen out seen' h
    cases items with
    | nil =>
      simp only [loaderStep, LoadOut.ok.injEq] at h
      exact h.2 ▸ List.Subset.refl seen
    | cons item rest =>
      cases item with
      | record r =>
        simp only [loaderStep] at h
        cases hrec : loaderStep fs fuel rest seen with
        | ok out1 seen1 =>
          rw [hrec] at h
          simp only [LoadOut.ok.injEq] at h
          exact h.2 ▸ ih rest seen out1 seen1 hrec
        | err => rw [hrec] at h; simp at h
        | fuelOut => rw [hrec] at h; simp at h
      | inc f =>
        simp only [loaderStep] at h
        split at h
        · exact ih rest seen out seen' h
        · rename_i hskip
          cases hlook : lookupAssoc fs f with
          | none => simp [hlook] at hskip
          | some c =>
            rw [hlook] at h
            cases c with
            | none => simp at h
            | some lines =>
              have := ih _ _ _ _ h
              exact fun x hx => this (List.mem_cons_of_mem f hx)

theorem loaderStep_count (fs : FileSys) (fuel : Nat) :
    ∀ (items : List Item) (seen : List Str) (out : List SrcRec)
      (seen' : List Str) (p : Str),
      loaderStep fs fuel items seen = .ok out seen' →
        out.countP (fun r => decide (r.path = p)) =
          itemRecCount items p +
            (if p ∈ seen' ∧ p ∉ seen then fileLineCount fs p else 0) := by
  induction fuel with
  | zero =>
    intro items seen out seen' p h
    cases items with
    | nil =>
      simp only [loaderStep, LoadOut.ok.injEq] at h
      obtain ⟨rfl, rfl⟩ := h
      rw [if_neg (fun hc : p ∈ seen ∧ p ∉ seen => hc.2 hc.1)]
      simp [itemRecCount]
    | cons item rest => simp [loaderStep] at h
  | succ fuel ih =>
    intro items seen out seen' p h
    cases items with
    | nil =>
      simp only [loaderStep, LoadOut.ok.injEq] at h
      obtain ⟨rfl, rfl⟩ := h
      rw [if_neg (fun hc : p ∈ seen ∧ p ∉ seen => hc.2 hc.1)]
      simp [itemRecCount]
    | cons item rest =>
      cases item with
      | record r =>
        simp only [loaderStep] at h
        cases hrec : loaderStep fs fuel rest seen with
        | ok out1 seen1 =>
          rw [hrec] at h
          simp only [LoadOut.ok.injEq] at h
          obtain ⟨rfl, rfl⟩ := h
          have hout := ih rest seen out1 seen1 p hrec
          by_cases hr : r.path = p <;>
            (simp [itemRecCount, List.countP_cons, isRecOf, hr, hout]
             try omega)
        | err => rw [hrec] at h; simp at h
        | fuelOut => rw [hrec] at h; simp at h
      | inc f =>
        simp only [loaderStep] at h
        split at h
        · rename_i hskip
          have := ih rest seen out seen' p h
          simpa [itemRecCount, List.countP_cons, isRecOf] using this
        · rename_i hskip
          cases hlook : lookupAssoc fs f with
          | none => simp [hlook] at hskip
          | some c =>
            rw [hlook] at h
            cases c with
            | none => simp at h
            | some lines =>
              have hf_notseen : f ∉ seen := by
                intro hc
                exact hskip (by simp [hc])
              have hsub := loaderStep_mono fs fuel _ _ _ _ h
              have hcount := ih _ _ _ _ p h
              rw [show itemRecCount (mkItems f lines ++ rest) p =
                  itemRecCount (mkItems f lines) p + itemRecCount rest p from
                List.countP_append _ _ _] at hcount
              rw [show itemRecCount (mkItems f lines) p =
                  if f = p then lines.length else 0 from
                itemRecCount_mkItemsAux f 1 lines p] at hcount
              by_cases hp : p = f
              · subst hp
                have hpseen' : p ∈ seen' := hsub (List.mem_cons_self p seen)
                have hpnot : ¬(p ∈ seen' ∧ p ∉ p :: seen) := by
                  intro hc
                  exact hc.2 (List.mem_cons_self p seen)
                rw [if_neg hpnot, if_pos rfl] at hcount
                rw [if_pos ⟨hpseen', hf_notseen⟩]
                rw [show fileLineCount fs p = lines.length from by
                  simp [fileLineCount, hlook]]
                simp [itemRecCount, List.countP_cons, isRecOf] at hcount ⊢
                omega
              · have hmemiff : (p ∈ seen' ∧ p ∉ f :: seen) ↔
                    (p ∈ seen' ∧ p ∉ seen) := by
                  constructor
                  · rintro ⟨h1, h2⟩
                    exact ⟨h1, fun hc => h2 (List.mem_cons_of_mem f hc)⟩
                  · rintro ⟨h1, h2⟩
                    refine ⟨h1, fun hc => ?_⟩
                    rcases List.mem_cons.mp hc with he | he
                    · exact hp he
                    · exact h2 he
                rw [if_neg (fun hc : f = p => hp hc.symm)] at hcount
                simp only [hmemiff] at hcount
                simp [itemRecCount, List.countP_cons, isRecOf] at hcount ⊢
                omega

theorem foldl_add_eq_sum {β : Type} (w : β → Nat) (l : List β) (n : Nat) :
    l.foldl (fun acc e => acc + w e) n = n + (l.map w).sum := by
  induction l generalizing n with
  | nil => simp
  | cons e es ih =>
    simp only [List.foldl_cons, List.map_cons, List.sum_cons]
    rw [ih]
    omega

theorem fsItemBound_eq (fs : FileSys) :
    fsItemBound fs = 1 + (fs.map entryWeight).sum := by
  have hfun : ∀ (n : Nat) (e : Str × Option (List Str)),
      n + (match e.2 with
           | some lines => (mkItems e.1 lines).length
           | none => 0) = n + entryWeight e := by
    intro n e
    obtain ⟨f, c⟩ := e
    cases c <;> rfl
  unfold fsItemBound
  rw [show (fun (n : Nat) (e : Str × Option (List Str)) =>
      n + (match e.2 with
           | some lines => (mkItems e.1 lines).length
           | none => 0)) = fun n e => n + entryWeight e from by
    funext n e
    exact hfun n e]
  exact foldl_add_eq_sum entryWeight fs 1

theorem unseenSum_nil_seen (fs : FileSys) :
    unseenSum fs [] = (fs.map entryWeight).sum := by
  unfold unseenSum
  rw [show fs.filter (fun e => decide (e.1 ∉ ([] : List Str))) = fs from by
    apply List.filter_eq_self.mpr
    intro e _
    simp]

theorem unseenSum_notkey (fs : FileSys) (f : Str) (seen : List Str)
    (h : f ∉ assocKeys fs) :
    unseenSum fs (f :: seen) = unseenSum fs seen := by
  induction fs with
  | nil => rfl
  | cons hd t ih =>
    obtain ⟨f1, c1⟩ := hd
    rw [show assocKeys ((f1, c1) :: t) = f1 :: assocKeys t from rfl,
      List.mem_cons] at h
    push_neg at h
    simp only [unseenSum, List.filter_cons]
    by_cases hm : f1 ∈ seen
    · have h1 : ¬(f1 ∉ f :: seen) := fun hc => hc (List.mem_cons_of_mem f hm)
      have h2 : ¬(f1 ∉ seen) := fun hc => hc hm
      rw [if_neg (by simpa using h1), if_neg (by simpa using h2)]
      exact ih h.2
    · have h1 : f1 ∉ f :: seen := by
        intro hc
        rcases List.mem_cons.mp hc with he | he
        · exact h.1 he.symm
        · exact hm he
      rw [if_pos (by simpa using h1), if_pos (by simpa using hm)]
      simp only [List.map_cons, List.sum_cons]
      have := ih h.2
      simp only [unseenSum] at this
      rw [this]

theorem unseenSum_visit (fs : FileSys) (f : Str) (seen : List Str)
    (c : Option (List Str)) (hnd : (assocKeys fs).Nodup)
    (hl : lookupAssoc fs f = some c) (hns : f ∉ seen) :
    unseenSum fs seen = entryWeight (f, c) + unseenSum fs (f :: seen) := by
  induction fs with
  | nil => simp [lookupAssoc] at hl
  | cons hd t ih =>
    obtain ⟨f1, c1⟩ := hd
    rw [show assocKeys ((f1, c1) :: t) = f1 :: assocKeys t from rfl,
      List.nodup_cons] at hnd
    by_cases hf1 : f1 = f
    · subst hf1
      have hc1 : c1 = c := by
        rw [show lookupAssoc ((f1, c1) :: t) f1 = some c1 from by
          simp [lookupAssoc]] at hl
        exact Option.some.inj hl
      subst hc1
      simp only [unseenSum, List.filter_cons]
      rw [if_pos (by simpa using hns),
        if_neg (by simp [List.mem_cons])]
      simp only [List.map_cons, List.sum_cons]
      have ht := unseenSum_notkey t f1 seen hnd.1
      simp only [unseenSum] at ht
      rw [ht]
    · have hl' : lookupAssoc t f = some c := by
        rw [show lookupAssoc ((f1, c1) :: t) f = lookupAssoc t f from by
          simp [lookupAssoc, hf1]] at hl
        exact hl
      simp only [unseenSum, List.filter_cons]
      by_cases hm : f1 ∈ seen
      · have h1 : ¬(f1 ∉ f :: seen) :=
          fun hc => hc (List.mem_cons_of_mem f hm)
        have h2 : ¬(f1 ∉ seen) := fun hc => hc hm
        rw [if_neg (by simpa using h2), if_neg (by simpa using h1)]
        exact ih hnd.2 hl'
      · have h1 : f1 ∉ f :: seen := by
          intro hc
          rcases List.mem_cons.mp hc with he | he
          · exact hf1 he
          · exact hm he
        rw [if_pos (by simpa using hm), if_pos (by simpa using h1)]
        simp only [List.map_cons, List.sum_cons]
        have := ih hnd.2 hl'
        simp only [unseenSum] at this
        rw [this]
        omega

theorem loaderStep_no_fuelOut (fs : FileSys)
    (hnd : (assocKeys fs).Nodup) (fuel : Nat) :
    ∀ (items : List Item) (seen : List Str),
      items.length + unseenSum fs seen ≤ fuel →
        loaderStep fs fuel items seen ≠ .fuelOut := by
  induction fuel with
  | zero =>
    intro items seen hle
    cases items with
    | nil => simp [loaderStep]
    | cons item rest => simp at hle
  | succ fuel ih =>
    intro items seen hle
    cases items with
    | nil => simp [loaderStep]
    | cons item rest =>
      cases item with
      | record r =>
        simp only [loaderStep]
        have hrest : rest.length + unseenSum fs seen ≤ fuel := by
          simp only [List.length_cons] at hle
          omega
        cases hrec : loaderStep fs fuel rest seen with
        | ok out1 seen1 => simp
        | err => simp
        | fuelOut => exact absurd hrec (ih rest seen hrest)
      | inc f =>
        simp only [loaderStep]
        split
        · refine ih rest seen ?_
          simp only [List.length_cons] at hle
          omega
        · rename_i hskip
          cases hlook : lookupAssoc fs f with
          | none => simp [hlook] at hskip
          | some c =>
            cases c with
            | none => simp
            | some lines =>
              have hf_notseen : f ∉ seen := by
                intro hc
                exact hskip (by simp [hc])
              have hvisit := unseenSum_visit fs f seen (some lines) hnd
                hlook hf_notseen
              refine ih (mkItems f lines ++ rest) (f :: seen) ?_
              simp only [List.length_append, List.length_cons] at hle ⊢
              have hw : entryWeight (f, some lines) =
                  (mkItems f lines).length := rfl
              omega

/-! ## Strip and body-restriction lemmas -/

theorem dropWhile_eq_nil_all (p : Char → Bool) (l : Str)
    (h : l.dropWhile p = []) : ∀ c ∈ l, p c = true := by
  induction l with
  | nil => intro c hc; cases hc
  | cons a t ih =>
    intro c hc
    by_cases ha : p a
    · rw [List.dropWhile_cons_of_pos ha] at h
      rcases List.mem_cons.mp hc with rfl | hc
      · exact ha
      · exact ih h c hc
    · rw [List.dropWhile_cons_of_neg ha] at h
      cases h

theorem mem_takeWhile_prop (p : Char → Bool) (l : Str) (c : Char)
    (h : c ∈ l.takeWhile p) : p c = true := by
  induction l with
  | nil => cases h
  | cons a t ih =>
    by_cases ha : p a
    · rw [List.takeWhile_cons_of_pos ha] at h
      rcases List.mem_cons.mp h with rfl | h
      · exact ha
      · exact ih h
    · rw [List.takeWhile_cons_of_neg ha] at h
      cases h

theorem pyStrip_eq_nil_all (s : Str) (h : pyStrip s = []) :
    ∀ c ∈ s, isPySpace c = true := by
  unfold pyStrip at h
  rw [List.reverse_eq_nil_iff] at h
  have h2 : ∀ c ∈ (s.dropWhile isPySpace).reverse, isPySpace c = true :=
    dropWhile_eq_nil_all isPySpace _ h
  intro c hc
  rw [show s = s.takeWhile isPySpace ++ s.dropWhile isPySpace from
    (List.takeWhile_append_dropWhile isPySpace s).symm] at hc
  rcases List.mem_append.mp hc with hc | hc
  · exact mem_takeWhile_prop isPySpace s c hc
  · exact h2 c (List.mem_reverse.mpr hc)

theorem pyStrip_ne_nil (s : Str) (h : ∃ c ∈ s, isPySpace c = false) :
    pyStrip s ≠ [] := by
  intro hc
  obtain ⟨c, hmem, hcs⟩ := h
  rw [pyStrip_eq_nil_all s hc c hmem] at hcs
  cases hcs

theorem contentEntriesAux_nil_of_no_marker (entries : List SrcRec)
    (h : ∀ e ∈ entries, pyContains e.text beginDocumentMarker = false) :
    contentEntriesAux entries false = [] := by
  induction entries with
  | nil => rfl
  | cons e es ih =>
    simp only [contentEntriesAux]
    rw [h e (List.mem_cons_self e es)]
    simp only [Bool.or_false]
    exact ih (fun e' he' => h e' (List.mem_cons_of_mem e he'))

theorem buildUsage_empty_content (sel : AcronymDef → Str)
    (defs : List (Str × AcronymDef)) (m : List (Str × List SrcRec)) :
    buildUsage sel defs [] m = m := by
  induction defs generalizing m with
  | nil => rfl
  | cons hd ds ih =>
    obtain ⟨k, d⟩ := hd
    simp only [buildUsage, buildUsageInner]
    exact ih m

/-! ## Concrete scenarios used by claim instances -/

/-- A file path for concrete scenarios. -/
def bodyPath : Str := "body.tex".data

/-- A record sequence whose body holds two occurrences of the bracketed
token `AB` (and none of `CD`). -/
def entriesTwoAB : List SrcRec :=
  [⟨bodyPath, 1, "\\begin{document}".data⟩,
   ⟨bodyPath, 2, "The system (AB) is new".data⟩,
   ⟨bodyPath, 3, "Again (AB) here".data⟩]

/-- A record sequence whose body holds a single occurrence of the
bracketed token `FB`, with a recoverable expansion, plus a standalone
lower-case use of that expansion. -/
def entriesOneFB : List SrcRec :=
  [⟨bodyPath, 1, "\\begin{document}".data⟩,
   ⟨bodyPath, 2, "The Foo Bar (FB) system".data⟩,
   ⟨bodyPath, 3, "the foo bar everywhere".data⟩]

/-- A record sequence whose body holds one annotated and one standalone
occurrence of the long form `Variational Autoencoder` for token `VAE`. -/
def entriesVAE : List SrcRec :=
  [⟨bodyPath, 1, "\\begin{document}".data⟩,
   ⟨bodyPath, 2, "We use a Variational Autoencoder (VAE) here".data⟩,
   ⟨bodyPath, 3, "A Variational Autoencoder is powerful".data⟩]

/-- Body line with two matches of the long form `World Model`. -/
def lineTwoWM : Str := "World Model and World Model here".data

/-- A record sequence whose single body line matches the long form
`World Model` twice. -/
def entriesTwoWM : List SrcRec :=
  [⟨bodyPath, 1, "\\begin{document}".data⟩, ⟨bodyPath, 2, lineTwoWM⟩]

/-- The definition table binding key `wm` to short `WM`, long
`World Model`. -/
def defsWM : List (Str × AcronymDef) :=
  [("wm".data, ⟨"WM".data, "World Model".data, bodyPath, 1⟩)]

/-- The entry-file name of the loader scenarios. -/
def mainName : Str := "main.tex".data

/-- Lines of a file that includes itself. -/
def loopLines : List Str :=
  ["\\begin{document}".data, "\\input{main}".data]

/-- A document tree whose entry file includes itself. -/
def loopFS : FileSys := [(mainName, some loopLines)]

/-- A record sequence with a definition command but no document-start
marker. -/
def entriesNoMarker : List SrcRec :=
  [⟨bodyPath, 1, "\\newacronym{wm}{WM}{Worldmodel}".data⟩,
   ⟨bodyPath, 2, "uses (WM) twice (WM)".data⟩]

/-! ## Claim theorems -/

/-- Claim C1: on the line `"...the Austrian Institute of Technology (AIT)
developed..."` the expansion recoverer produces the candidate long form
`"Austrian Institute of Technology"` for the token `AIT` — walking at
most the last 5 words right-to-left, keeping uppercase-initial words and
connector words, and stopping at the first word that is neither. -/
theorem recoverer_ait_candidate :
    recoverCandidate "AIT".data
      "...the Austrian Institute of Technology (AIT) developed...".data =
      some "Austrian Institute of Technology".data := by decide

/-- Claim C2: a bracketed 2-10 uppercase token of body content that is
neither a defined short form nor a Roman numeral (that is, a key of the
occurrence table `undefCounts`) is absent from the undefined-acronym
occurrence list when it occurs exactly once, and present there with every
one of its occurrences when it occurs two or more times. -/
theorem noise_filter_threshold (entries : List SrcRec)
    (defs : List (Str × AcronymDef)) (a : Str) (occs : List SrcRec)
    (h : lookupAssoc (undefCounts entries defs) a = some occs) :
    (occs.length = 1 →
      ∀ o : SrcRec, (a, o) ∉ (scan_acronyms entries defs).undefined) ∧
    (2 ≤ occs.length →
      ∀ o ∈ occs, (a, o) ∈ (scan_acronyms entries defs).undefined) := by
  have hnd : (assocKeys (undefCounts entries defs)).Nodup :=
    (procContent_nodup (definedShorts defs) (contentEntries entries)
      ([], []) List.nodup_nil List.nodup_nil).1
  have hscan : (scan_acronyms entries defs).undefined =
      undefinedOf (undefCounts entries defs) := rfl
  constructor
  · intro h1 o
    rw [hscan]
    exact not_mem_undefinedOf_single _ a occs o hnd h h1
  · intro h2 o ho
    rw [hscan]
    exact mem_undefinedOf _ a occs o h h2 ho

/-- Witness for C2 at a concrete two-occurrence document. -/
theorem noise_filter_threshold_witness :
    ("AB".data, (⟨bodyPath, 2, "The system (AB) is new".data⟩ : SrcRec)) ∈
      (scan_acronyms entriesTwoAB []).undefined :=
  (noise_filter_threshold entriesTwoAB [] "AB".data
      [⟨bodyPath, 2, "The system (AB) is new".data⟩,
       ⟨bodyPath, 3, "Again (AB) here".data⟩]
      (by decide)).2 (by decide) _ (by decide)

/-- Counterexample to C3: in `entriesOneFB` the token `FB` occurs exactly
once in body content, yet it contributes a recovered long form and an
inconsistent-usage occurrence to the scan report. -/
theorem single_occurrence_in_mappings :
    lookupAssoc (undefCounts entriesOneFB []) "FB".data =
      some [⟨bodyPath, 2, "The Foo Bar (FB) system".data⟩] ∧
    lookupAssoc (scan_acronyms entriesOneFB []).undefined_full_forms
      "FB".data = some ["The Foo Bar".data] ∧
    lookupAssoc (scan_acronyms entriesOneFB []).inconsistent_usage
      "FB".data =
      some [(⟨bodyPath, 3, "the foo bar everywhere".data⟩,
        "The Foo Bar".data)] := by decide

/-- Amended C3: the ≥2-occurrence noise filter is applied only to the
undefined-acronym occurrence list; the recovered-long-form mapping (and
hence the inconsistent-usage mapping computed from it) is fed from every
occurrence, including tokens with a single body occurrence. -/
theorem threshold_only_for_undefined_list (entries : List SrcRec)
    (defs : List (Str × AcronymDef)) (a : Str) (occs : List SrcRec)
    (h : lookupAssoc (undefCounts entries defs) a = some occs)
    (h1 : occs.length = 1) :
    (∀ o : SrcRec, (a, o) ∉ (scan_acronyms entries defs).undefined) ∧
    (∀ e ∈ contentEntries entries,
      (∃ t ∈ findParenTokens e.text, pyStrip t = a) →
      a ∉ definedShorts defs → a ∉ romanNumerals →
      ∀ ff, recoverCandidate a e.text = some ff →
        ff ∈ lookupListAssoc
          (scan_acronyms entries defs).undefined_full_forms a) := by
  have hnd : (assocKeys (undefCounts entries defs)).Nodup :=
    (procContent_nodup (definedShorts defs) (contentEntries entries)
      ([], []) List.nodup_nil List.nodup_nil).1
  constructor
  · intro o
    have hscan : (scan_acronyms entries defs).undefined =
        undefinedOf (undefCounts entries defs) := rfl
    rw [hscan]
    exact not_mem_undefinedOf_single _ a occs o hnd h h1
  · intro e he ht hs hr ff hrec
    have hscan : (scan_acronyms entries defs).undefined_full_forms =
        undefFullForms entries defs := rfl
    rw [hscan]
    exact procContent_forms_mem (definedShorts defs)
      (contentEntries entries) ([], []) a ff e he ht hs hr hrec

/-- Witness for the amended C3 at the concrete single-occurrence
document. -/
theorem threshold_only_for_undefined_list_witness :
    ("FB".data,
      (⟨bodyPath, 2, "The Foo Bar (FB) system".data⟩ : SrcRec)) ∉
      (scan_acronyms entriesOneFB []).undefined ∧
    "The Foo Bar".data ∈ lookupListAssoc
      (scan_acronyms entriesOneFB []).undefined_full_forms "FB".data :=
  ⟨(threshold_only_for_undefined_list entriesOneFB [] "FB".data
      [⟨bodyPath, 2, "The Foo Bar (FB) system".data⟩]
      (by decide) (by decide)).1 _,
   (threshold_only_for_undefined_list entriesOneFB [] "FB".data
      [⟨bodyPath, 2, "The Foo Bar (FB) system".data⟩]
      (by decide) (by decide)).2
      ⟨bodyPath, 2, "The Foo Bar (FB) system".data⟩ (by decide)
      ⟨"FB".data, by decide, by decide⟩ (by decide) (by decide)
      "The Foo Bar".data (by decide)⟩

/-- Claim C4: for a token `a`, the inconsistent-usage occurrences of the
scan report are exactly the body lines in which a recovered long form of
`a` matches case-insensitively with word boundaries and is not
immediately followed by the parenthesized token (the standalone
pattern) — soundness and completeness at line granularity. -/
theorem inconsistency_detector_spec (entries : List SrcRec)
    (defs : List (Str × AcronymDef)) (a : Str) :
    (∀ x : SrcRec × Str,
      x ∈ lookupListAssoc
          (scan_acronyms entries defs).inconsistent_usage a →
        x.2 ∈ lookupListAssoc
          (scan_acronyms entries defs).undefined_full_forms a ∧
        ∃ e ∈ contentEntries entries,
          standaloneSearch x.2 a e.text = true ∧
            x.1 = ⟨e.path, e.lineNo, pyStrip e.text⟩) ∧
    (∀ ff ∈ lookupListAssoc
        (scan_acronyms entries defs).undefined_full_forms a,
      ∀ e ∈ contentEntries entries, standaloneSearch ff a e.text = true →
        ((⟨e.path, e.lineNo, pyStrip e.text⟩ : SrcRec), ff) ∈
          lookupListAssoc
            (scan_acronyms entries defs).inconsistent_usage a) := by
  have hfnd : (assocKeys (undefFullForms entries defs)).Nodup :=
    (procContent_nodup (definedShorts defs) (contentEntries entries)
      ([], []) List.nodup_nil List.nodup_nil).2
  have hscani : (scan_acronyms entries defs).inconsistent_usage =
      buildInconsistent (contentEntries entries)
        (undefFullForms entries defs) [] := rfl
  have hscanf : (scan_acronyms entries defs).undefined_full_forms =
      undefFullForms entries defs := rfl
  constructor
  · intro x hx
    rw [hscani] at hx
    rcases buildInconsistent_sound (contentEntries entries)
        (undefFullForms entries defs) [] a x hx with h1 | h1
    · simp [lookupListAssoc, lookupAssoc] at h1
    · obtain ⟨ffs, hmem, ff, hff, e, he, hs, hxe⟩ := h1
      have hl : lookupAssoc (undefFullForms entries defs) a = some ffs :=
        lookupAssoc_eq_of_mem_nodup _ a ffs hfnd hmem
      subst hxe
      refine ⟨?_, e, he, hs, rfl⟩
      rw [hscanf]
      rw [show lookupListAssoc (undefFullForms entries defs) a = ffs from by
        simp [lookupListAssoc, hl]]
      exact hff
  · intro ff hff e he hs
    rw [hscani]
    rw [hscanf] at hff
    cases hl : lookupAssoc (undefFullForms entries defs) a with
    | none =>
      rw [show lookupListAssoc (undefFullForms entries defs) a = [] from by
        simp [lookupListAssoc, hl]] at hff
      cases hff
    | some ffs =>
      have hffs : ff ∈ ffs := by
        rwa [show lookupListAssoc (undefFullForms entries defs) a = ffs from
          by simp [lookupListAssoc, hl]] at hff
      exact buildInconsistent_mem (contentEntries entries)
        (undefFullForms entries defs) [] a ffs ff e hfnd hl hffs he hs

/-- Witness for C4 at the concrete `Variational Autoencoder` document:
the standalone body line is flagged. -/
theorem inconsistency_detector_spec_witness :
    ((⟨bodyPath, 3, "A Variational Autoencoder is powerful".data⟩ : SrcRec),
      "Variational Autoencoder".data) ∈
      lookupListAssoc
        (scan_acronyms entriesVAE []).inconsistent_usage "VAE".data :=
  (inconsistency_detector_spec entriesVAE [] "VAE".data).2
    "Variational Autoencoder".data (by decide)
    ⟨bodyPath, 3, "A Variational Autoencoder is powerful".data⟩
    (by decide) (by decide)

/-- Counterexample to C5: in `entriesTwoWM`, the pattern for the long
form `World Model` matches the single body line at two distinct
positions (0 and 16), yet the usage scanner records exactly one
occurrence for the definition key `wm` — not one record per match. -/
theorem usage_scan_two_matches_one_record :
    lookupAssoc (scan_acronyms entriesTwoWM defsWM).used_full "wm".data =
      some [⟨bodyPath, 2, lineTwoWM⟩] ∧
    wordPluralAt "World Model".data lineTwoWM 0 = true ∧
    wordPluralAt "World Model".data lineTwoWM 16 = true := by decide

/-- Amended C5: for each definition, the usage scanner appends exactly
one record per body line in which the case-insensitive, optional
trailing-`s`, word-boundary pattern for the long (respectively short)
form is found anywhere — every matching line is recorded once,
regardless of how many matches the line holds. -/
theorem usage_scan_per_line_record (entries : List SrcRec)
    (defs : List (Str × AcronymDef)) (key : Str) (d : AcronymDef)
    (hnd : (assocKeys defs).Nodup) (h : lookupAssoc defs key = some d) :
    lookupListAssoc (scan_acronyms entries defs).used_full key =
      (contentEntries entries).filter
        (fun e => wordPluralSearch d.full e.text) ∧
    lookupListAssoc (scan_acronyms entries defs).used_short key =
      (contentEntries entries).filter
        (fun e => wordPluralSearch d.short e.text) := by
  have hf : (scan_acronyms entries defs).used_full =
      buildUsage (fun d => d.full) defs (contentEntries entries) [] := rfl
  have hsh : (scan_acronyms entries defs).used_short =
      buildUsage (fun d => d.short) defs (contentEntries entries) [] := rfl
  constructor
  · rw [hf, buildUsage_lookup (fun d => d.full) defs
      (contentEntries entries) [] key d hnd h]
    simp [lookupListAssoc, lookupAssoc]
  · rw [hsh, buildUsage_lookup (fun d => d.short) defs
      (contentEntries entries) [] key d hnd h]
    simp [lookupListAssoc, lookupAssoc]

/-- Witness for the amended C5 at the concrete two-match document. -/
theorem usage_scan_per_line_record_witness :
    lookupListAssoc (scan_acronyms entriesTwoWM defsWM).used_full
      "wm".data =
      (contentEntries entriesTwoWM).filter
        (fun e => wordPluralSearch "World Model".data e.text) :=
  (usage_scan_per_line_record entriesTwoWM defsWM "wm".data
    ⟨"WM".data, "World Model".data, bodyPath, 1⟩
    (by decide) (by decide)).1

/-- Claim C6: the document loader terminates on every document tree —
with the standard fuel it never exhausts the worklist budget, including
when a file includes itself directly or transitively — and a readable
entry file's record sequence is included exactly once: the output holds
exactly one record per line of the entry file. -/
theorem loader_terminates_includes_once (fs : FileSys) (entry : Str)
    (lines : List Str) (hnd : (assocKeys fs).Nodup)
    (hread : lookupAssoc fs entry = some (some lines)) :
    read_latex_recursive fs entry ≠ .fuelOut ∧
    ∀ (out : List SrcRec) (seen' : List Str),
      read_latex_recursive fs entry = .ok out seen' →
        out.countP (fun r => decide (r.path = entry)) = lines.length := by
  constructor
  · apply loaderStep_no_fuelOut fs hnd
    rw [unseenSum_nil_seen, fsItemBound_eq]
    simp
  · intro out seen' h
    have hb1 : 1 ≤ fsItemBound fs := by
      rw [fsItemBound_eq]; omega
    obtain ⟨b, hb⟩ : ∃ b, fsItemBound fs = b + 1 :=
      ⟨fsItemBound fs - 1, by omega⟩
    unfold read_latex_recursive at h
    rw [hb] at h
    simp only [loaderStep] at h
    rw [if_neg (by simp [hread])] at h
    rw [hread] at h
    have hcount := loaderStep_count fs b (mkItems entry lines ++ [])
      (entry :: []) out seen' entry h
    rw [show itemRecCount (mkItems entry lines ++ []) entry =
        lines.length from by
      rw [List.append_nil,
        show mkItems entry lines = mkItemsAux entry 1 lines from rfl,
        itemRecCount_mkItemsAux entry 1 lines entry]
      simp] at hcount
    rw [if_neg (fun hc : entry ∈ seen' ∧ entry ∉ [entry] =>
      hc.2 (List.mem_cons_self entry []))] at hcount
    omega

/-- Witness for C6 at the self-including document tree: the run
terminates and the entry file's two lines appear exactly once. -/
theorem loader_terminates_includes_once_witness :
    read_latex_recursive loopFS mainName ≠ .fuelOut ∧
    List.countP (fun r => decide (r.path = mainName))
      [(⟨mainName, 1, "\\begin{document}".data⟩ : SrcRec),
       ⟨mainName, 2, "\\input{main}".data⟩] = loopLines.length :=
  ⟨(loader_terminates_includes_once loopFS mainName loopLines (by decide)
      (by decide)).1,
   (loader_terminates_includes_once loopFS mainName loopLines (by decide)
      (by decide)).2
     [⟨mainName, 1, "\\begin{document}".data⟩,
      ⟨mainName, 2, "\\input{main}".data⟩] [mainName] (by decide)⟩

/-- Counterexample to C7: with an empty filesystem the entry file is
missing, yet the loader returns an empty record sequence with no error
and the analysis proceeds to an empty report — nothing is surfaced to
the caller. -/
theorem missing_entry_not_fatal :
    read_latex_recursive [] mainName = .ok [] [] ∧
    run_analysis [] mainName = some ([], ⟨[], [], [], [], []⟩) := by decide

/-- Amended C7: a missing file — included or entry — is silently skipped
with an empty contribution and the analysis proceeds; an error is
surfaced only for a file that exists but cannot be read, whether it is
the entry file or an included one. -/
theorem entry_error_policy (fs : FileSys) (entry : Str) :
    (lookupAssoc fs entry = none →
      read_latex_recursive fs entry = .ok [] []) ∧
    (lookupAssoc fs entry = some none →
      read_latex_recursive fs entry = .err) := by
  obtain ⟨b, hb⟩ : ∃ b, fsItemBound fs = b + 1 := by
    have : 1 ≤ fsItemBound fs := by rw [fsItemBound_eq]; omega
    exact ⟨fsItemBound fs - 1, by omega⟩
  constructor
  · intro h
    unfold read_latex_recursive
    rw [hb]
    simp only [loaderStep]
    rw [if_pos (by simp [h])]
  · intro h
    unfold read_latex_recursive
    rw [hb]
    simp only [loaderStep]
    rw [if_neg (by simp [h]), h]

/-- Witness for the amended C7: missing entry yields an empty successful
load; an unreadable entry file surfaces the error. -/
theorem entry_error_policy_witness :
    read_latex_recursive [("other.tex".data, some [])] mainName =
      .ok [] [] ∧
    read_latex_recursive [(mainName, none)] mainName = .err :=
  ⟨(entry_error_policy [("other.tex".data, some [])] mainName).1
      (by decide),
   (entry_error_policy [(mainName, none)] mainName).2 (by decide)⟩

/-- Counterexample to C8: on the empty line with target `"x"` the
sentence extractor returns the empty string — it is not non-empty for
every line and target. -/
theorem extract_sentence_empty_input :
    extract_sentence_containing_text [] "x".data = [] := by decide

/-- Amended C8: the extractor always terminates; when the target is
absent it returns the trimmed full line (non-empty whenever the trimmed
line is), and when the target is found it returns a non-empty string
whenever some non-whitespace character lies in the window from 150
characters before to 200 after the target's first occurrence.  (For
degenerate all-whitespace lines or windows the result can be empty.) -/
theorem extract_sentence_nonempty (text target_text : Str) :
    (pyFind text target_text = none → pyStrip text ≠ [] →
      extract_sentence_containing_text text target_text ≠ []) ∧
    (∀ pos, pyFind text target_text = some pos →
      (∃ c ∈ pySlice text (pos - 150) (pos + 200), isPySpace c = false) →
        extract_sentence_containing_text text target_text ≠ []) := by
  constructor
  · intro hfind hne
    unfold extract_sentence_containing_text
    rw [hfind]
    exact hne
  · intro pos hfind hex
    unfold extract_sentence_containing_text
    rw [hfind]
    show (if (sentenceCandidate text target_text pos).length < 20 ∨
        pyContains (sentenceCandidate text target_text pos) target_text
          = false then
        pyStrip (pySlice text (pos - 150) (pos + 200))
      else sentenceCandidate text target_text pos) ≠ []
    split
    · exact pyStrip_ne_nil _ hex
    · rename_i hcond
      push_neg at hcond
      intro hc
      rw [hc] at hcond
      simp at hcond

/-- Witness for the amended C8: a not-found case on a non-blank line and
a found case with a non-blank window both yield non-empty sentences. -/
theorem extract_sentence_nonempty_witness :
    extract_sentence_containing_text "Just a plain line".data
      "zzz".data ≠ [] ∧
    extract_sentence_containing_text "The VAE (VAE) is good".data
      "(VAE)".data ≠ [] :=
  ⟨(extract_sentence_nonempty "Just a plain line".data "zzz".data).1
      (by decide) (by decide),
   (extract_sentence_nonempty "The VAE (VAE) is good".data
      "(VAE)".data).2 8 (by decide) (by decide)⟩

/-- Claim C9: the full analysis is deterministic — two sequential
invocations on an unchanged document tree return identical results.  The
embedding is a pure function of the filesystem precisely because the
source allocates the loader's visited set fresh inside each top-level
call (`seen = None` default parameter) and keeps no state between
runs, so the second component of `run_analysis_twice` is computed by the
same function application as the first. -/
theorem analysis_deterministic (fs : FileSys) (entry : Str) :
    (run_analysis_twice fs entry).1 = (run_analysis_twice fs entry).2 :=
  rfl

/-- Claim C10: when no record contains the document-start marker, every
scanning collection of the report is empty — no usage occurrences, no
undefined-acronym occurrences, no recovered long forms, no inconsistent
usages — even with the definitions extracted from the full record
sequence supplied to the scanner. -/
theorem no_marker_empty_scan (entries : List SrcRec)
    (h : ∀ e ∈ entries, pyContains e.text beginDocumentMarker = false) :
    scan_acronyms entries (extract_defined_acronyms entries) =
      ⟨[], [], [], [], []⟩ := by
  have hc : contentEntries entries = [] :=
    contentEntriesAux_nil_of_no_marker entries h
  simp only [scan_acronyms, hc]
  rw [buildUsage_empty_content, buildUsage_empty_content]
  rfl

/-- Witness for C10: a document with a definition command and two
bracketed tokens but no document-start marker scans to an empty
report. -/
theorem no_marker_empty_scan_witness :
    scan_acronyms entriesNoMarker
      (extract_defined_acronyms entriesNoMarker) =
      ⟨[], [], [], [], []⟩ :=
  no_marker_empty_scan entriesNoMarker (by decide)
